import Mathlib

/-!
Verification of the algorithmic core of the `tstoolbox` time-series toolkit.

The development shallowly embeds the three kernels that the specification
singles out:

* the banded dynamic-time-warping distance `_dtw` from `tstoolbox.py`,
* the per-row time-indexed expression evaluator of the `equation` command
  from `tstoolbox.py`,
* the FFT filter front end `_transform` / `fft_highpass` from `filters.py`.

Real numbers of the Python code are modelled as exact rationals `ℚ`; a
Python value of `NaN` in a result cell is modelled as `none`; a raised
Python exception is modelled through `Except PyErr`.
-/

/-- Python exception classes that the embedded code can raise.
`valueError` stands for the explicit `raise ValueError(...)` calls (the
specification's "ValidationError" tier), `indexError` for out-of-bounds
indexing (also covering pandas' `AssertionError` on negative `.ix` rows,
which the source catches together with `IndexError`), and `nameError`
for the lookup failure of an undefined Python name. -/
inductive PyErr where
  | indexError
  | nameError
  | valueError
deriving DecidableEq, Repr

deriving instance DecidableEq for Except

/-! ## The DTW kernel `_dtw`

Source: `src/tstoolbox/tstoolbox.py`, function `_dtw(ts_a, ts_b, d, window)`.

The Python code allocates `cost = sys.maxsize * ones((M, N))`, fills the
first column and first row, then fills the banded interior in row-major
order; a cell outside the band keeps the sentinel `sys.maxsize`.  Because
every interior cell only reads lexicographically smaller cells, the final
matrix is the unique fixed point of the recurrence below, which we embed
as a function of the cell coordinates (with a structural fuel argument so
that the definition reduces in the kernel). -/

/-- `sys.maxsize` on a 64-bit platform, the sentinel the source stores in
every cost-matrix cell it never writes. -/
def sentinel : ℚ := 9223372036854775807

/-- The default pointwise distance of `_dtw`: `lambda x, y: abs(x-y)`. -/
def absd (x y : ℚ) : ℚ := |x - y|

/-- `min(choices)` of the source, over the three-tuple
`(cost[i-1, j-1], cost[i, j-1], cost[i-1, j])`. -/
def min3 (x y z : ℚ) : ℚ := min (min x y) z

/-- Fuel-indexed evaluation of the cost matrix of `_dtw`.  `costF f i j`
is the value of cell `(i, j)` provided `f > i + j`; the fuel only makes
the recursion structural and is otherwise irrelevant (`costF_stable`). -/
def costF (a b : List ℚ) (d : ℚ → ℚ → ℚ) (w : ℕ) : ℕ → ℕ → ℕ → ℚ
  | 0, _, _ => 0
  | _ + 1, 0, 0 => d (a.getD 0 0) (b.getD 0 0)
  | f + 1, i + 1, 0 => costF a b d w f i 0 + d (a.getD (i + 1) 0) (b.getD 0 0)
  | f + 1, 0, j + 1 => costF a b d w f 0 j + d (a.getD 0 0) (b.getD (j + 1) 0)
  | f + 1, i + 1, j + 1 =>
      if max 1 (i + 1 - w) ≤ j + 1 ∧ j + 1 < min b.length (i + 1 + w) then
        d (a.getD (i + 1) 0) (b.getD (j + 1) 0) +
          min3 (costF a b d w f i j) (costF a b d w f (i + 1) j)
            (costF a b d w f i (j + 1))
      else sentinel

/-- Cell `(i, j)` of the cost matrix computed by `_dtw(a, b, d, window)`. -/
def cost (a b : List ℚ) (d : ℚ → ℚ → ℚ) (w : ℕ) (i j : ℕ) : ℚ :=
  costF a b d w (i + j + 1) i j

theorem costF_stable (a b : List ℚ) (d : ℚ → ℚ → ℚ) (w : ℕ) :
    ∀ f g i j, i + j < f → i + j < g →
      costF a b d w f i j = costF a b d w g i j := by
  intro f
  induction f with
  | zero => intro g i j h; omega
  | succ f ih =>
    intro g i j hf hg
    match g, hg with
    | g + 1, hg =>
      match i, j with
      | 0, 0 => rfl
      | i + 1, 0 =>
        simp only [costF]
        rw [ih g i 0 (by omega) (by omega)]
      | 0, j + 1 =>
        simp only [costF]
        rw [ih g 0 j (by omega) (by omega)]
      | i + 1, j + 1 =>
        simp only [costF]
        rw [ih g i j (by omega) (by omega),
          ih g (i + 1) j (by omega) (by omega),
          ih g i (j + 1) (by omega) (by omega)]

theorem cost_zero_zero (a b : List ℚ) (d : ℚ → ℚ → ℚ) (w : ℕ) :
    cost a b d w 0 0 = d (a.getD 0 0) (b.getD 0 0) := rfl

theorem cost_succ_zero (a b : List ℚ) (d : ℚ → ℚ → ℚ) (w : ℕ) (i : ℕ) :
    cost a b d w (i + 1) 0 = cost a b d w i 0 + d (a.getD (i + 1) 0) (b.getD 0 0) := rfl

theorem cost_zero_succ (a b : List ℚ) (d : ℚ → ℚ → ℚ) (w : ℕ) (j : ℕ) :
    cost a b d w 0 (j + 1) = cost a b d w 0 j + d (a.getD 0 0) (b.getD (j + 1) 0) := rfl

theorem cost_succ_succ (a b : List ℚ) (d : ℚ → ℚ → ℚ) (w : ℕ) (i j : ℕ) :
    cost a b d w (i + 1) (j + 1) =
      if max 1 (i + 1 - w) ≤ j + 1 ∧ j + 1 < min b.length (i + 1 + w) then
        d (a.getD (i + 1) 0) (b.getD (j + 1) 0) +
          min3 (cost a b d w i j) (cost a b d w (i + 1) j) (cost a b d w i (j + 1))
      else sentinel := by
  show costF a b d w (i + 1 + (j + 1) + 1) (i + 1) (j + 1) = _
  simp only [costF]
  rw [costF_stable a b d w (i + 1 + (j + 1)) (i + j + 1) i j (by omega) (by omega),
    costF_stable a b d w (i + 1 + (j + 1)) (i + 1 + j + 1) (i + 1) j (by omega) (by omega),
    costF_stable a b d w (i + 1 + (j + 1)) (i + (j + 1) + 1) i (j + 1) (by omega) (by omega)]
  rfl

/-- The function `_dtw` itself.  On an empty input the source hits
`ts_a[0]` (resp. `ts_b[0]`) on a length-0 array, which raises an
`IndexError`; otherwise it returns `cost[-1, -1] = cost[M-1][N-1]`. -/
def _dtw (a b : List ℚ) (d : ℚ → ℚ → ℚ) (w : ℕ) : Except PyErr ℚ :=
  if a.isEmpty ∨ b.isEmpty then .error .indexError
  else .ok (cost a b d w (a.length - 1) (b.length - 1))

theorem dtw_empty_left (b : List ℚ) (d : ℚ → ℚ → ℚ) (w : ℕ) :
    _dtw [] b d w = .error .indexError := rfl

theorem dtw_empty_right (a : List ℚ) (d : ℚ → ℚ → ℚ) (w : ℕ) :
    _dtw a [] d w = .error .indexError := by
  simp [_dtw]

theorem dtw_nonempty (a b : List ℚ) (d : ℚ → ℚ → ℚ) (w : ℕ)
    (hM : a ≠ []) (hN : b ≠ []) :
    _dtw a b d w = .ok (cost a b d w (a.length - 1) (b.length - 1)) := by
  simp [_dtw, hM, hN]

/-- **C1.** For non-empty sequences `A` (length `M`) and `B` (length `N`) and
any window `W`, `_dtw(A, B, d, W)` returns `cost[M-1][N-1]` of the
dynamic-programming matrix defined by `cost[0][0] = d(A0,B0)`,
`cost[i][0] = cost[i-1][0] + d(Ai,B0)`, `cost[0][j] = cost[0][j-1] + d(A0,Bj)`,
and, for `1 ≤ i < M` and `max(1, i-W) ≤ j < min(N, i+W)`,
`cost[i][j] = d(Ai,Bj) + min(cost[i-1][j-1], cost[i][j-1], cost[i-1][j])`. -/
theorem dtw_matches_dp_recurrence (a b : List ℚ) (d : ℚ → ℚ → ℚ) (w : ℕ)
    (hM : a ≠ []) (hN : b ≠ []) :
    cost a b d w 0 0 = d (a.getD 0 0) (b.getD 0 0) ∧
    (∀ i, 1 ≤ i → i < a.length →
      cost a b d w i 0 = cost a b d w (i - 1) 0 + d (a.getD i 0) (b.getD 0 0)) ∧
    (∀ j, 1 ≤ j → j < b.length →
      cost a b d w 0 j = cost a b d w 0 (j - 1) + d (a.getD 0 0) (b.getD j 0)) ∧
    (∀ i j, 1 ≤ i → i < a.length → max 1 (i - w) ≤ j → j < min b.length (i + w) →
      cost a b d w i j = d (a.getD i 0) (b.getD j 0) +
        min3 (cost a b d w (i - 1) (j - 1)) (cost a b d w i (j - 1))
          (cost a b d w (i - 1) j)) ∧
    _dtw a b d w = .ok (cost a b d w (a.length - 1) (b.length - 1)) := by
  refine ⟨cost_zero_zero a b d w, ?_, ?_, ?_, dtw_nonempty a b d w hM hN⟩
  · intro i h1 _
    obtain ⟨i', rfl⟩ : ∃ i', i = i' + 1 := ⟨i - 1, by omega⟩
    simpa using cost_succ_zero a b d w i'
  · intro j h1 _
    obtain ⟨j', rfl⟩ : ∃ j', j = j' + 1 := ⟨j - 1, by omega⟩
    simpa using cost_zero_succ a b d w j'
  · intro i j h1 hiM hjlo hjhi
    obtain ⟨i', rfl⟩ : ∃ i', i = i' + 1 := ⟨i - 1, by omega⟩
    obtain ⟨j', rfl⟩ : ∃ j', j = j' + 1 := by
      have : 1 ≤ j := le_trans (le_max_left 1 _) hjlo
      exact ⟨j - 1, by omega⟩
    rw [cost_succ_succ, if_pos ⟨hjlo, hjhi⟩]
    simp

/-- Witness for C1: the recurrence theorem applied at `A = [1, 2]`,
`B = [3]`, `W = 1`, extracting the returned-value conjunct. -/
theorem dtw_matches_dp_recurrence_witness :
    _dtw [1, 2] [3] absd 1 = .ok (cost [1, 2] [3] absd 1 1 0) :=
  (dtw_matches_dp_recurrence [1, 2] [3] absd 1 (by simp) (by simp)).2.2.2.2

/-- **C4 counterexample.** The claim says `_dtw` fails with a
ValidationError whenever `window < 1` and no distance value is returned;
in fact the source performs no validation at all: with `window = 0` it
returns a number (here the never-written final cell, i.e. the
`sys.maxsize` sentinel). -/
theorem dtw_window_zero_returns_value :
    _dtw [0, 0] [0, 0] absd 0 = .ok sentinel := by
  norm_num [_dtw, cost, costF, min3, absd, sentinel]

/-- **C4 (amended).** `_dtw` validates nothing: for non-empty inputs and
`window = 0` it still returns a value, and for an empty input it fails
with an `IndexError` from indexing a length-0 array (not with the
spec's ValidationError tier, which corresponds to an explicit
`raise ValueError`). -/
theorem dtw_no_validation (a b : List ℚ) (d : ℚ → ℚ → ℚ) (w : ℕ)
    (hM : a ≠ []) (hN : b ≠ []) :
    (∃ q, _dtw a b d 0 = .ok q) ∧
    _dtw [] b d w = .error .indexError ∧
    _dtw a [] d w = .error .indexError :=
  ⟨⟨cost a b d 0 (a.length - 1) (b.length - 1), dtw_nonempty a b d 0 hM hN⟩,
    dtw_empty_left b d w, dtw_empty_right a d w⟩

/-- Witness for the amended C4 at `A = [1]`, `B = [2]`, `W = 7`. -/
theorem dtw_no_validation_witness :
    (∃ q, _dtw [1] [2] absd 0 = .ok q) ∧
    _dtw [] [2] absd 7 = .error .indexError ∧
    _dtw [1] [] absd 7 = .error .indexError :=
  dtw_no_validation [1] [2] absd 7 (by simp) (by simp)

theorem sentinel_nonneg : (0 : ℚ) ≤ sentinel := by norm_num [sentinel]

theorem costF_nonneg (a b : List ℚ) (d : ℚ → ℚ → ℚ) (w : ℕ)
    (hd : ∀ x y, 0 ≤ d x y) :
    ∀ f i j, 0 ≤ costF a b d w f i j := by
  intro f
  induction f with
  | zero => intro i j; exact le_refl 0
  | succ f ih =>
    intro i j
    match i, j with
    | 0, 0 => exact hd _ _
    | i + 1, 0 => exact add_nonneg (ih i 0) (hd _ _)
    | 0, j + 1 => exact add_nonneg (ih 0 j) (hd _ _)
    | i + 1, j + 1 =>
      simp only [costF]
      split
      · exact add_nonneg (hd _ _)
          (le_min (le_min (ih i j) (ih (i + 1) j)) (ih i (j + 1)))
      · exact sentinel_nonneg

theorem cost_nonneg (a b : List ℚ) (d : ℚ → ℚ → ℚ) (w : ℕ)
    (hd : ∀ x y, 0 ≤ d x y) (i j : ℕ) : 0 ≤ cost a b d w i j :=
  costF_nonneg a b d w hd _ i j

theorem absd_nonneg (x y : ℚ) : 0 ≤ absd x y := abs_nonneg _

theorem absd_self (x : ℚ) : absd x x = 0 := by simp [absd]

theorem cost_diag_self (a : List ℚ) (w : ℕ) (hw : 1 ≤ w) :
    ∀ k, k < a.length → cost a a absd w k k = 0 := by
  intro k
  induction k with
  | zero => intro _; rw [cost_zero_zero, absd_self]
  | succ k ih =>
    intro hk
    have hband : max 1 (k + 1 - w) ≤ k + 1 ∧ k + 1 < min a.length (k + 1 + w) :=
      ⟨max_le (by omega) (by omega), lt_min hk (by omega)⟩
    rw [cost_succ_succ, if_pos hband, absd_self, ih (by omega), zero_add]
    have h2 := cost_nonneg a a absd w absd_nonneg (k + 1) k
    have h3 := cost_nonneg a a absd w absd_nonneg k (k + 1)
    simp only [min3]
    rw [min_eq_left h2, min_eq_left h3]

/-- **C8.** For every non-empty sequence `A` and window `W ≥ 1`,
`_dtw(A, A, window=W)` with the default pointwise distance `|x-y|`
returns `0`. -/
theorem dtw_self_zero (a : List ℚ) (w : ℕ) (hM : a ≠ []) (hw : 1 ≤ w) :
    _dtw a a absd w = .ok 0 := by
  rw [dtw_nonempty a a absd w hM hM,
    cost_diag_self a w hw (a.length - 1)
      (Nat.sub_lt (List.length_pos.mpr hM) one_pos)]

/-- Witness for C8 at `A = [1, 2]`, `W = 1`. -/
theorem dtw_self_zero_witness : _dtw [1, 2] [1, 2] absd 1 = .ok 0 :=
  dtw_self_zero [1, 2] 1 (by simp) (by omega)

theorem absd_comm (x y : ℚ) : absd x y = absd y x := abs_sub_comm x y

theorem min3_comm23 (x y z : ℚ) : min3 x y z = min3 x z y := by
  simp only [min3]
  rw [min_assoc, min_comm y z, ← min_assoc]

/-- **C6 counterexample.** `_dtw` is not symmetric in its sequence
arguments for every window: the band bounds `max(1, i-window) ≤ j <
min(N, i+window)` are asymmetric, so with `A = [0,0,0]`, `B = [0,0]`
and `window = 1` the final cell is inside the band in one orientation
(distance `0`) and outside it in the other (the `sys.maxsize`
sentinel). -/
theorem dtw_asymmetric_counterexample :
    _dtw [0, 0, 0] [0, 0] absd 1 = .ok 0 ∧
    _dtw [0, 0] [0, 0, 0] absd 1 = .ok sentinel ∧ (sentinel : ℚ) ≠ 0 := by
  refine ⟨?_, ?_, by norm_num [sentinel]⟩ <;>
    norm_num [_dtw, cost, costF, min3, absd, sentinel]

theorem cost_transpose (a b : List ℚ) (w : ℕ)
    (hwa : a.length ≤ w) (hwb : b.length ≤ w) :
    ∀ n i j, i + j ≤ n → i < a.length → j < b.length →
      cost a b absd w i j = cost b a absd w j i := by
  intro n
  induction n with
  | zero =>
    intro i j hn hi hj
    obtain rfl : i = 0 := by omega
    obtain rfl : j = 0 := by omega
    rw [cost_zero_zero, cost_zero_zero, absd_comm]
  | succ n ih =>
    intro i j hn hi hj
    match i, j with
    | 0, 0 => rw [cost_zero_zero, cost_zero_zero, absd_comm]
    | i + 1, 0 =>
      rw [cost_succ_zero, cost_zero_succ, ih i 0 (by omega) (by omega) hj,
        absd_comm]
    | 0, j + 1 =>
      rw [cost_zero_succ, cost_succ_zero, ih 0 j (by omega) hi (by omega),
        absd_comm]
    | i + 1, j + 1 =>
      have hb1 : max 1 (i + 1 - w) ≤ j + 1 ∧ j + 1 < min b.length (i + 1 + w) :=
        ⟨max_le (by omega) (by omega), lt_min hj (by omega)⟩
      have hb2 : max 1 (j + 1 - w) ≤ i + 1 ∧ i + 1 < min a.length (j + 1 + w) :=
        ⟨max_le (by omega) (by omega), lt_min hi (by omega)⟩
      rw [cost_succ_succ a b absd w i j, if_pos hb1,
        cost_succ_succ b a absd w j i, if_pos hb2,
        ih i j (by omega) (by omega) (by omega),
        ih (i + 1) j (by omega) (by omega) (by omega),
        ih i (j + 1) (by omega) (by omega) (by omega),
        absd_comm, min3_comm23]

/-- **C6 (amended).** With the default pointwise distance `|x-y|`,
`_dtw(A, B, window=W) = _dtw(B, A, window=W)` holds once the window is at
least as large as both sequence lengths (in particular for the default
`window = 10000` on shorter inputs), where the band covers the whole
matrix; for smaller windows the asymmetric band bounds can break
symmetry. -/
theorem dtw_symmetric_full_window (a b : List ℚ) (w : ℕ)
    (hM : a ≠ []) (hN : b ≠ []) (hwa : a.length ≤ w) (hwb : b.length ≤ w) :
    _dtw a b absd w = _dtw b a absd w := by
  rw [dtw_nonempty a b absd w hM hN, dtw_nonempty b a absd w hN hM]
  exact congrArg Except.ok
    (cost_transpose a b w hwa hwb (a.length + b.length)
      (a.length - 1) (b.length - 1) (by omega)
      (Nat.sub_lt (List.length_pos.mpr hM) one_pos)
      (Nat.sub_lt (List.length_pos.mpr hN) one_pos))

/-- Witness for the amended C6 at `A = [1, 2]`, `B = [3]`, `W = 10`. -/
theorem dtw_symmetric_full_window_witness :
    _dtw [1, 2] [3] absd 10 = _dtw [3] [1, 2] absd 10 :=
  dtw_symmetric_full_window [1, 2] [3] 10 (by simp) (by simp)
    (by simp) (by simp)

/-- **C7 counterexample.** Enlarging the window can *increase* the
returned value: with `A = [0,0,0,0]`, `B = [0, 2^64]`, the narrow band
`window = 1` misses the final cell and returns the `sys.maxsize`
sentinel, while `window = 2` reaches it and returns the genuine
accumulated cost `2^64`, which exceeds the sentinel. -/
theorem dtw_window_monotonicity_counterexample :
    _dtw [0, 0, 0, 0] [0, 18446744073709551616] absd 1 = .ok sentinel ∧
    _dtw [0, 0, 0, 0] [0, 18446744073709551616] absd 2 =
      .ok 18446744073709551616 ∧
    ¬((18446744073709551616 : ℚ) ≤ sentinel) := by
  refine ⟨?_, ?_, by norm_num [sentinel]⟩ <;>
    norm_num [_dtw, cost, costF, min3, absd, sentinel]

theorem band_mono (N w1 w2 i j : ℕ) (hw : w1 ≤ w2)
    (h : max 1 (i - w1) ≤ j ∧ j < min N (i + w1)) :
    max 1 (i - w2) ≤ j ∧ j < min N (i + w2) := by
  simp only [max_le_iff, lt_min_iff] at h ⊢
  omega

theorem min3_mono {x y z x' y' z' : ℚ} (hx : x ≤ x') (hy : y ≤ y')
    (hz : z ≤ z') : min3 x y z ≤ min3 x' y' z' :=
  min_le_min (min_le_min hx hy) hz

theorem cost_window_mono (a b : List ℚ) (d : ℚ → ℚ → ℚ) (w1 w2 : ℕ)
    (hw : w1 ≤ w2)
    (hbound : ∀ i, i < a.length → ∀ j, j < b.length →
      cost a b d w2 i j ≤ sentinel) :
    ∀ n i j, i + j ≤ n → i < a.length → j < b.length →
      cost a b d w2 i j ≤ cost a b d w1 i j := by
  intro n
  induction n with
  | zero =>
    intro i j hn _ _
    obtain rfl : i = 0 := by omega
    obtain rfl : j = 0 := by omega
    rw [cost_zero_zero, cost_zero_zero]
  | succ n ih =>
    intro i j hn hi hj
    match i, j with
    | 0, 0 => rw [cost_zero_zero, cost_zero_zero]
    | i + 1, 0 =>
      rw [cost_succ_zero, cost_succ_zero]
      exact add_le_add_right (ih i 0 (by omega) (by omega) hj) _
    | 0, j + 1 =>
      rw [cost_zero_succ, cost_zero_succ]
      exact add_le_add_right (ih 0 j (by omega) hi (by omega)) _
    | i + 1, j + 1 =>
      by_cases h1 : max 1 (i + 1 - w1) ≤ j + 1 ∧
          j + 1 < min b.length (i + 1 + w1)
      · have h2 := band_mono b.length w1 w2 (i + 1) (j + 1) hw h1
        rw [cost_succ_succ a b d w2 i j, if_pos h2,
          cost_succ_succ a b d w1 i j, if_pos h1]
        refine add_le_add_left (min3_mono ?_ ?_ ?_) _
        · exact ih i j (by omega) (by omega) (by omega)
        · exact ih (i + 1) j (by omega) hi (by omega)
        · exact ih i (j + 1) (by omega) (by omega) hj
      · rw [cost_succ_succ a b d w1 i j, if_neg h1]
        exact hbound (i + 1) hi (j + 1) hj

/-- **C7 (amended).** Widening the band is non-increasing,
`_dtw(A, B, W2) ≤ _dtw(A, B, W1)` for `W1 ≤ W2`, provided every cost
cell computed with the wider window stays at or below the `sys.maxsize`
sentinel (which holds for any realistically-scaled data); without that
proviso the sentinel of an unreached final cell can compare below a
genuine path cost, as the counterexample shows. -/
theorem dtw_window_monotone_bounded (a b : List ℚ) (d : ℚ → ℚ → ℚ)
    (w1 w2 : ℕ) (hM : a ≠ []) (hN : b ≠ []) (hw : w1 ≤ w2)
    (hbound : ∀ i, i < a.length → ∀ j, j < b.length →
      cost a b d w2 i j ≤ sentinel) :
    ∃ q1 q2, _dtw a b d w1 = .ok q1 ∧ _dtw a b d w2 = .ok q2 ∧ q2 ≤ q1 := by
  refine ⟨cost a b d w1 (a.length - 1) (b.length - 1),
    cost a b d w2 (a.length - 1) (b.length - 1),
    dtw_nonempty a b d w1 hM hN, dtw_nonempty a b d w2 hM hN, ?_⟩
  exact cost_window_mono a b d w1 w2 hw hbound (a.length + b.length)
    (a.length - 1) (b.length - 1) (by omega)
    (Nat.sub_lt (List.length_pos.mpr hM) one_pos)
    (Nat.sub_lt (List.length_pos.mpr hN) one_pos)

/-- Witness for the amended C7 at `A = [0, 1]`, `B = [0, 1]`,
`W1 = 1`, `W2 = 2`. -/
theorem dtw_window_monotone_bounded_witness :
    ∃ q1 q2, _dtw [0, 1] [0, 1] absd 1 = .ok q1 ∧
      _dtw [0, 1] [0, 1] absd 2 = .ok q2 ∧ q2 ≤ q1 :=
  dtw_window_monotone_bounded [0, 1] [0, 1] absd 1 2 (by simp) (by simp)
    (by omega)
    (by
      intro i hi j hj
      simp only [List.length_cons, List.length_nil] at hi hj
      interval_cases i <;> interval_cases j <;>
        norm_num [cost, costF, min3, absd, sentinel])

/-! ## Alignment paths and the band region

`inRegion M N w i j` says cell `(i, j)` is one of the cells the source
actually writes: the first column, the first row, or a banded interior
cell.  All remaining cells keep the `sys.maxsize` sentinel. -/

def inRegion (M N w : ℕ) (i j : ℕ) : Prop :=
  (j = 0 ∧ i < M) ∨ (i = 0 ∧ j < N) ∨
  (1 ≤ i ∧ i < M ∧ max 1 (i - w) ≤ j ∧ j < min N (i + w))

/-- One DTW alignment move: diagonal, down, or right. -/
def isStep (p q : ℕ × ℕ) : Prop :=
  (q.1 = p.1 + 1 ∧ q.2 = p.2 + 1) ∨ (q.1 = p.1 + 1 ∧ q.2 = p.2) ∨
  (q.1 = p.1 ∧ q.2 = p.2 + 1)

/-- Successive cells of the list are joined by alignment moves. -/
def chain : List (ℕ × ℕ) → Prop
  | [] => True
  | [_] => True
  | p :: q :: r => isStep p q ∧ chain (q :: r)

/-- The accumulated pointwise distance along a list of matrix cells:
the cost of the alignment it describes. -/
def pathCost (a b : List ℚ) (d : ℚ → ℚ → ℚ) (p : List (ℕ × ℕ)) : ℚ :=
  (p.map fun c => d (a.getD c.1 0) (b.getD c.2 0)).sum

theorem getD_zeros (m n : ℕ) : (List.replicate m (0 : ℚ)).getD n 0 = 0 := by
  induction m generalizing n with
  | zero => rfl
  | succ m ih =>
    match n with
    | 0 => rfl
    | n + 1 => exact ih n

/-- **C5 counterexample.** With `A = [0,0]`, `B = [0,0,0]` and
`window = 1` the final cell lies outside the band and `_dtw` returns the
`sys.maxsize` sentinel — yet every alignment of these all-zero sequences
(in-band or not) has cost `0`, so the returned value is not the cost of
any alignment path. -/
theorem dtw_sentinel_not_path_cost :
    _dtw [0, 0] [0, 0, 0] absd 1 = .ok sentinel ∧
    (∀ p : List (ℕ × ℕ), pathCost [0, 0] [0, 0, 0] absd p = 0) ∧
    (sentinel : ℚ) ≠ 0 := by
  refine ⟨by norm_num [_dtw, cost, costF, min3, absd, sentinel], ?_,
    by norm_num [sentinel]⟩
  intro p
  have h2 : ([0, 0] : List ℚ) = List.replicate 2 0 := rfl
  have h3 : ([0, 0, 0] : List ℚ) = List.replicate 3 0 := rfl
  refine List.sum_eq_zero ?_
  intro x hx
  simp only [List.mem_map] at hx
  obtain ⟨c, _, rfl⟩ := hx
  rw [h3, h2, getD_zeros, getD_zeros, absd_self]

theorem min3_le_left (x y z : ℚ) : min3 x y z ≤ x :=
  le_trans (min_le_left _ _) (min_le_left _ _)

theorem min3_choice (x y z : ℚ) :
    min3 x y z = x ∨ min3 x y z = y ∨ min3 x y z = z := by
  simp only [min3]
  rcases min_choice (min x y) z with h | h
  · rcases min_choice x y with h' | h'
    · exact Or.inl (h.trans h')
    · exact Or.inr (Or.inl (h.trans h'))
  · exact Or.inr (Or.inr h)

theorem head?_concat {α : Type} (p : List α) (x y : α)
    (h : p.head? = some y) : (p ++ [x]).head? = some y := by
  cases p with
  | nil => simp at h
  | cons a t => simpa using h

theorem chain_concat (x : ℕ × ℕ) :
    ∀ p q, chain p → p.getLast? = some q → isStep q x → chain (p ++ [x]) := by
  intro p
  induction p with
  | nil => intro q _ h _; simp at h
  | cons y rest ih =>
    intro q hc hl hs
    cases rest with
    | nil =>
      simp only [List.getLast?_singleton, Option.some.injEq] at hl
      exact ⟨hl ▸ hs, trivial⟩
    | cons z r =>
      obtain ⟨h1, h2⟩ := hc
      have hl' : (z :: r).getLast? = some q := by
        rwa [List.getLast?_cons_cons] at hl
      exact ⟨h1, ih q h2 hl' hs⟩

theorem pathCost_concat (a b : List ℚ) (d : ℚ → ℚ → ℚ)
    (p : List (ℕ × ℕ)) (x : ℕ × ℕ) :
    pathCost a b d (p ++ [x]) =
      pathCost a b d p + d (a.getD x.1 0) (b.getD x.2 0) := by
  simp [pathCost]

theorem path_extend (a b : List ℚ) (d : ℚ → ℚ → ℚ) (w : ℕ)
    (pi pj i j : ℕ) (hstep : isStep (pi, pj) (i, j))
    (hreg : inRegion a.length b.length w i j)
    (hcost : cost a b d w i j =
      cost a b d w pi pj + d (a.getD i 0) (b.getD j 0))
    (H : ∃ p, p.head? = some (0, 0) ∧ p.getLast? = some (pi, pj) ∧ chain p ∧
      (∀ c ∈ p, inRegion a.length b.length w c.1 c.2) ∧
      pathCost a b d p = cost a b d w pi pj) :
    ∃ p, p.head? = some (0, 0) ∧ p.getLast? = some (i, j) ∧ chain p ∧
      (∀ c ∈ p, inRegion a.length b.length w c.1 c.2) ∧
      pathCost a b d p = cost a b d w i j := by
  obtain ⟨p, h1, h2, h3, h4, h5⟩ := H
  refine ⟨p ++ [(i, j)], head?_concat p _ _ h1, List.getLast?_concat _,
    chain_concat (i, j) p (pi, pj) h3 h2 hstep, ?_, ?_⟩
  · intro c hc
    rcases List.mem_append.mp hc with hc | hc
    · exact h4 c hc
    · simp only [List.mem_singleton] at hc
      exact hc ▸ hreg
  · rw [pathCost_concat, h5, ← hcost]

theorem diag_in_region {M N w i j : ℕ}
    (h : i + 1 < M ∧ max 1 (i + 1 - w) ≤ j + 1 ∧ j + 1 < min N (i + 1 + w)) :
    inRegion M N w i j := by
  simp only [inRegion, max_le_iff, lt_min_iff] at *
  omega

theorem cost_reaches (a b : List ℚ) (d : ℚ → ℚ → ℚ) (w : ℕ)
    (hbound : ∀ i, i < a.length → ∀ j, j < b.length →
      inRegion a.length b.length w i j → cost a b d w i j < sentinel) :
    ∀ n i j, i + j ≤ n → inRegion a.length b.length w i j →
      ∃ p, p.head? = some (0, 0) ∧ p.getLast? = some (i, j) ∧ chain p ∧
        (∀ c ∈ p, inRegion a.length b.length w c.1 c.2) ∧
        pathCost a b d p = cost a b d w i j := by
  intro n
  induction n with
  | zero =>
    intro i j hn hreg
    obtain rfl : i = 0 := by omega
    obtain rfl : j = 0 := by omega
    refine ⟨[(0, 0)], rfl, rfl, trivial, ?_, by simp [pathCost, cost_zero_zero]⟩
    intro c hc
    simp only [List.mem_singleton] at hc
    exact hc ▸ hreg
  | succ n ih =>
    intro i j hn hreg
    match i, j with
    | 0, 0 =>
      refine ⟨[(0, 0)], rfl, rfl, trivial, ?_, by simp [pathCost, cost_zero_zero]⟩
      intro c hc
      simp only [List.mem_singleton] at hc
      exact hc ▸ hreg
    | i + 1, 0 =>
      have hi : i + 1 < a.length := by
        simp only [inRegion, max_le_iff, lt_min_iff] at hreg
        omega
      exact path_extend a b d w i 0 (i + 1) 0 (Or.inr (Or.inl ⟨rfl, rfl⟩))
        hreg (cost_succ_zero a b d w i)
        (ih i 0 (by omega) (Or.inl ⟨rfl, by omega⟩))
    | 0, j + 1 =>
      have hj : j + 1 < b.length := by
        simp only [inRegion, max_le_iff, lt_min_iff] at hreg
        omega
      exact path_extend a b d w 0 j 0 (j + 1) (Or.inr (Or.inr ⟨rfl, rfl⟩))
        hreg (cost_zero_succ a b d w j)
        (ih 0 j (by omega) (Or.inr (Or.inl ⟨rfl, by omega⟩)))
    | i + 1, j + 1 =>
      have hiM : i + 1 < a.length := by
        simp only [inRegion, max_le_iff, lt_min_iff] at hreg
        omega
      have hband : max 1 (i + 1 - w) ≤ j + 1 ∧
          j + 1 < min b.length (i + 1 + w) := by
        simp only [inRegion, max_le_iff, lt_min_iff] at hreg
        simp only [max_le_iff, lt_min_iff]
        omega
      have hjN : j + 1 < b.length := by
        have := hband.2
        simp only [lt_min_iff] at this
        exact this.1
      have hcost : cost a b d w (i + 1) (j + 1) =
          d (a.getD (i + 1) 0) (b.getD (j + 1) 0) +
            min3 (cost a b d w i j) (cost a b d w (i + 1) j)
              (cost a b d w i (j + 1)) := by
        rw [cost_succ_succ, if_pos hband]
      have hdiag : inRegion a.length b.length w i j :=
        diag_in_region ⟨hiM, hband.1, hband.2⟩
      have hc1lt : cost a b d w i j < sentinel :=
        hbound i (by omega) j (by omega) hdiag
      have hminle : min3 (cost a b d w i j) (cost a b d w (i + 1) j)
          (cost a b d w i (j + 1)) ≤ cost a b d w i j :=
        min3_le_left _ _ _
      rcases min3_choice (cost a b d w i j) (cost a b d w (i + 1) j)
          (cost a b d w i (j + 1)) with hm | hm | hm
      · -- the minimum is the diagonal predecessor, always a written cell
        exact path_extend a b d w i j (i + 1) (j + 1) (Or.inl ⟨rfl, rfl⟩)
          hreg (by rw [hcost, hm]; exact add_comm _ _)
          (ih i j (by omega) hdiag)
      · -- the minimum is the left predecessor `(i+1, j)`
        have hleft : inRegion a.length b.length w (i + 1) j := by
          match j with
          | 0 => exact Or.inl ⟨rfl, hiM⟩
          | j' + 1 =>
            by_cases hb : max 1 (i + 1 - w) ≤ j' + 1 ∧
                j' + 1 < min b.length (i + 1 + w)
            · exact Or.inr (Or.inr ⟨by omega, hiM, hb.1, hb.2⟩)
            · exfalso
              have hs : cost a b d w (i + 1) (j' + 1) = sentinel := by
                rw [cost_succ_succ, if_neg hb]
              rw [← hm] at hs
              exact absurd (hs ▸ (hminle.trans_lt hc1lt)) (lt_irrefl _)
        exact path_extend a b d w (i + 1) j (i + 1) (j + 1)
          (Or.inr (Or.inr ⟨rfl, rfl⟩)) hreg
          (by rw [hcost, hm]; exact add_comm _ _)
          (ih (i + 1) j (by omega) hleft)
      · -- the minimum is the upper predecessor `(i, j+1)`
        have hup : inRegion a.length b.length w i (j + 1) := by
          match i with
          | 0 => exact Or.inr (Or.inl ⟨rfl, hjN⟩)
          | i' + 1 =>
            by_cases hb : max 1 (i' + 1 - w) ≤ j + 1 ∧
                j + 1 < min b.length (i' + 1 + w)
            · exact Or.inr (Or.inr ⟨by omega, by omega, hb.1, hb.2⟩)
            · exfalso
              have hs : cost a b d w (i' + 1) (j + 1) = sentinel := by
                rw [cost_succ_succ, if_neg hb]
              rw [← hm] at hs
              exact absurd (hs ▸ (hminle.trans_lt hc1lt)) (lt_irrefl _)
        exact path_extend a b d w i (j + 1) (i + 1) (j + 1)
          (Or.inr (Or.inl ⟨rfl, rfl⟩)) hreg
          (by rw [hcost, hm]; exact add_comm _ _)
          (ih i (j + 1) (by omega) hup)

/-- **C5 (amended).** When the final cell `(M-1, N-1)` is itself inside
the written region and every written cell stays strictly below the
`sys.maxsize` sentinel, no `min` reduction that feeds the result ever
selects an out-of-band (sentinel-valued) cell: the returned distance is
the accumulated cost of an actual alignment path that runs entirely
through written (boundary or in-band) cells.  Without those provisos the
band sentinel itself can be returned, as the counterexample shows. -/
theorem dtw_in_band_path (a b : List ℚ) (d : ℚ → ℚ → ℚ) (w : ℕ)
    (hM : a ≠ []) (hN : b ≠ [])
    (hfin : inRegion a.length b.length w (a.length - 1) (b.length - 1))
    (hbound : ∀ i, i < a.length → ∀ j, j < b.length →
      inRegion a.length b.length w i j → cost a b d w i j < sentinel) :
    ∃ p, p.head? = some (0, 0) ∧
      p.getLast? = some (a.length - 1, b.length - 1) ∧ chain p ∧
      (∀ c ∈ p, inRegion a.length b.length w c.1 c.2) ∧
      _dtw a b d w = .ok (pathCost a b d p) := by
  obtain ⟨p, h1, h2, h3, h4, h5⟩ :=
    cost_reaches a b d w hbound (a.length + b.length)
      (a.length - 1) (b.length - 1) (by omega) hfin
  exact ⟨p, h1, h2, h3, h4, by rw [dtw_nonempty a b d w hM hN, h5]⟩

/-- Witness for the amended C5 at `A = [0, 1]`, `B = [0, 1]`, `W = 2`. -/
theorem dtw_in_band_path_witness :
    ∃ p, p.head? = some (0, 0) ∧ p.getLast? = some (1, 1) ∧ chain p ∧
      (∀ c ∈ p, inRegion 2 2 2 c.1 c.2) ∧
      _dtw [0, 1] [0, 1] absd 2 = .ok (pathCost [0, 1] [0, 1] absd p) :=
  dtw_in_band_path [0, 1] [0, 1] absd 2 (by simp) (by simp)
    (by
      simp only [inRegion, max_le_iff, lt_min_iff, List.length_cons,
        List.length_nil]
      omega)
    (by
      intro i hi j hj _
      simp only [List.length_cons, List.length_nil] at hi hj
      interval_cases i <;> interval_cases j <;>
        norm_num [cost, costF, min3, absd, sentinel])

/-! ## The time-indexed expression evaluator of `equation`

Source: `src/tstoolbox/tstoolbox.py`, `_parse_equation` and `equation`.

`_parse_equation` rewrites the user's expression text and collects in
`testeval` the bracket contents of every time-indexed reference; the
`equation` command then evaluates the rewritten expression once per row
`t`, first raising `IndexError` when any collected index expression is
negative, and catching `(AssertionError, IndexError)` to downgrade that
row's result to `NaN`.  Any other exception (e.g. a `NameError` from an
unknown function name) propagates and aborts the command.

We embed the rewritten expressions as ASTs.  `XExpr` covers the
`tsearch`-only path (`x[t+k]` references, rewritten to `x.ix[t+k, :]`)
over a one-column series, whose width-1 row we identify with its scalar;
`CExpr` covers the `tsearch`-and-`nsearch` path (`xN[t+k]` references,
rewritten to `x.ix[t+k, N-1]`) over a multi-column table.  Of the `np`
namespace the model carries the one function the claims exercise
(`abs`); every other name resolves to a `NameError` exactly as an
unknown function name does in the source. -/

inductive XExpr where
  | lit (q : ℚ)
  | xref (off : Int)
  | add (e1 e2 : XExpr)
  | sub (e1 e2 : XExpr)
  | mul (e1 e2 : XExpr)
  | call (fname : String) (e : XExpr)

/-- The `testeval` index expressions of the source, as row offsets:
`x[t+k]` contributes `k`.  (The source drops the plain entry `'t'` from
the set; since `t ≥ 0` that check can never fire, so keeping offset `0`
is behaviourally identical.) -/
def XExpr.offsets : XExpr → List Int
  | .lit _ => []
  | .xref off => [off]
  | .add e1 e2 => e1.offsets ++ e2.offsets
  | .sub e1 e2 => e1.offsets ++ e2.offsets
  | .mul e1 e2 => e1.offsets ++ e2.offsets
  | .call _ e => e.offsets

/-- One evaluation of the rewritten expression at row `t`: `x.ix[t+k, :]`
raises `IndexError` (or, for a negative label, `AssertionError`; both
are `PyErr.indexError` here) when the row index is out of range.  A call
resolves its function name before its argument, as Python does. -/
def evalX (x : List ℚ) (t : ℕ) : XExpr → Except PyErr ℚ
  | .lit q => .ok q
  | .xref off =>
      let r : Int := (t : Int) + off
      if 0 ≤ r ∧ r.toNat < x.length then .ok (x.getD r.toNat 0)
      else .error .indexError
  | .add e1 e2 => do pure ((← evalX x t e1) + (← evalX x t e2))
  | .sub e1 e2 => do pure ((← evalX x t e1) - (← evalX x t e2))
  | .mul e1 e2 => do pure ((← evalX x t e1) * (← evalX x t e2))
  | .call f e =>
      if f = "abs" then do pure |(← evalX x t e)|
      else .error .nameError

/-- The body of the per-row loop of `equation`: the negative-offset
pre-check and the `try`/`except (AssertionError, IndexError)` that turns
an index fault into a missing value for this row only. -/
def rowEvalX (x : List ℚ) (e : XExpr) (t : ℕ) : Except PyErr (Option ℚ) :=
  if e.offsets.any fun off => decide ((t : Int) + off < 0) then .ok none
  else
    match evalX x t e with
    | .ok v => .ok (some v)
    | .error .indexError => .ok none
    | .error err => .error err

/-- `for t in range(len(x)): ...`, stopping at the first uncaught
exception (in which case the command aborts with no output). -/
def seqRows (f : ℕ → Except PyErr (Option ℚ)) :
    List ℕ → Except PyErr (List (Option ℚ))
  | [] => .ok []
  | t :: ts =>
    match f t with
    | .error e => .error e
    | .ok v =>
      match seqRows f ts with
      | .error e => .error e
      | .ok vs => .ok (v :: vs)

/-- The `equation` command on the `tsearch`-only path, for a one-column
input series `x`. -/
def equationT (x : List ℚ) (e : XExpr) : Except PyErr (List (Option ℚ)) :=
  seqRows (rowEvalX x e) (List.range x.length)

/-- **C2.** For the input column `[1,2,3,4,5]` and the expression
`x[t]+x[t-1]`, the `equation` operation returns `[NaN, 3, 5, 7, 9]`:
row 0 is missing because its row offset `t-1` is out of range, every
other row `t` holds the exact sum of the values at rows `t` and `t-1`,
and the out-of-range offset affects only that one row. -/
theorem equation_time_indexed_example :
    equationT [1, 2, 3, 4, 5] (.add (.xref 0) (.xref (-1))) =
      .ok [none, some 3, some 5, some 7, some 9] := by
  norm_num [equationT, seqRows, rowEvalX, evalX, XExpr.offsets,
    List.range_succ, bind, Except.bind, pure, Except.pure, Int.toNat,
    List.getD]

/-- AST of the rewritten expression on the `tsearch`-and-`nsearch`
path: `x{n}[t+k]` becomes `cell k (n-1)`, a lookup of column `n-1`
at row `t+k` of the table. -/
inductive CExpr where
  | lit (q : ℚ)
  | cell (off : Int) (col : ℕ)
  | add (e1 e2 : CExpr)
  | sub (e1 e2 : CExpr)
  | mul (e1 e2 : CExpr)
  | call (fname : String) (e : CExpr)

/-- The `testeval` row offsets collected from `xN[...]` references. -/
def CExpr.offsets : CExpr → List Int
  | .lit _ => []
  | .cell off _ => [off]
  | .add e1 e2 => e1.offsets ++ e2.offsets
  | .sub e1 e2 => e1.offsets ++ e2.offsets
  | .mul e1 e2 => e1.offsets ++ e2.offsets
  | .call _ e => e.offsets

/-- Evaluation of the rewritten expression at row `t` over the table
(`x.ix[t+k, n-1]`): both a row index and a column index out of range
raise `IndexError`. -/
def evalC (tbl : List (List ℚ)) (t : ℕ) : CExpr → Except PyErr ℚ
  | .lit q => .ok q
  | .cell off col =>
      let r : Int := (t : Int) + off
      if 0 ≤ r ∧ r.toNat < tbl.length then
        match (tbl.getD r.toNat []).get? col with
        | some v => .ok v
        | none => .error .indexError
      else .error .indexError
  | .add e1 e2 => do pure ((← evalC tbl t e1) + (← evalC tbl t e2))
  | .sub e1 e2 => do pure ((← evalC tbl t e1) - (← evalC tbl t e2))
  | .mul e1 e2 => do pure ((← evalC tbl t e1) * (← evalC tbl t e2))
  | .call f e =>
      if f = "abs" then do pure |(← evalC tbl t e)|
      else .error .nameError

/-- The per-row loop body on the `tsearch`-and-`nsearch` path. -/
def rowEvalC (tbl : List (List ℚ)) (e : CExpr) (t : ℕ) :
    Except PyErr (Option ℚ) :=
  if e.offsets.any fun off => decide ((t : Int) + off < 0) then .ok none
  else
    match evalC tbl t e with
    | .ok v => .ok (some v)
    | .error .indexError => .ok none
    | .error err => .error err

/-- The `equation` command on the `tsearch`-and-`nsearch` path,
producing the single derived output column. -/
def equationTN (tbl : List (List ℚ)) (e : CExpr) :
    Except PyErr (List (Option ℚ)) :=
  seqRows (rowEvalC tbl e) (List.range tbl.length)

/-- **C3 counterexample.** `x2[t]` on a one-column table references
column index 2, outside the available range — yet `equation` does not
fail before any row is evaluated: each row's `IndexError` is caught by
the row-local handler, and the command succeeds with a produced per-row
output column of missing values. -/
theorem equation_column_out_of_range_no_error :
    equationTN [[1], [2]] (.cell 0 1) = .ok [none, none] := by
  norm_num [equationTN, seqRows, rowEvalC, evalC, CExpr.offsets,
    List.range_succ, Int.toNat, List.getD]

theorem seqRows_const_none (f : ℕ → Except PyErr (Option ℚ))
    (hf : ∀ t, f t = .ok none) :
    ∀ ts : List ℕ, seqRows f ts = .ok (List.replicate ts.length none) := by
  intro ts
  induction ts with
  | nil => rfl
  | cons t ts ih => simp [seqRows, hf t, ih, List.replicate_succ]

/-- **C3 (amended).** A time-indexed reference to a column index outside
the available range is *not* fatal and triggers no validation: when the
referenced column is beyond every row's width, each row's evaluation
raises `IndexError`, the row-local handler converts it to missing, and
the operation returns an all-missing column with no error at all.
(Genuinely fatal faults, such as an unknown function name, abort with no
output — but they surface during row evaluation, not before it.) -/
theorem equation_column_out_of_range_all_missing (tbl : List (List ℚ))
    (off : Int) (col : ℕ) (hcol : ∀ row ∈ tbl, row.length ≤ col) :
    equationTN tbl (.cell off col) = .ok (List.replicate tbl.length none) := by
  have hrow : ∀ t, rowEvalC tbl (.cell off col) t = .ok none := by
    intro t
    unfold rowEvalC
    split
    · rfl
    · simp only [evalC]
      by_cases hr : 0 ≤ (t : Int) + off ∧ ((t : Int) + off).toNat < tbl.length
      · rw [if_pos hr]
        have hmem : tbl.getD ((t : Int) + off).toNat [] ∈ tbl := by
          rw [List.getD_eq_getElem?_getD, List.getElem?_eq_getElem hr.2]
          exact List.getElem_mem _
        rw [List.get?_eq_none.mpr (hcol _ hmem)]
      · rw [if_neg hr]
  rw [equationTN, seqRows_const_none _ hrow, List.length_range]

/-- Witness for the amended C3 at the one-column table `[[1], [2]]` and
the expression `x2[t]`. -/
theorem equation_column_out_of_range_all_missing_witness :
    equationTN [[1], [2]] (.cell 0 1) = .ok (List.replicate 2 none) :=
  equation_column_out_of_range_all_missing [[1], [2]] 0 1
    (by intro row hrow; fin_cases hrow <;> simp)

/-! ## The spectral-filter front end

Source: `src/tstoolbox/filters.py` (and the near-identical copy in
`src/tstoolbox/functions/filter.py`).  `_transform` first raises
`ValueError` when `cutoff_period` or `window_len` is `None`, and only
then runs the FFT pipeline.  The numerical pipeline itself (rfft, mask,
padding, smoothing, irfft) is floating-point signal processing outside
this development's claims, so the embedding keeps it as an explicit
functional parameter `fftBody`: the theorems below quantify over it,
which is exactly the statement that the validation failure happens
before — and independently of — any FFT computation. -/

def _transform (fftBody : List ℚ → ℚ → ℕ → Bool → List ℚ) (vector : List ℚ)
    (cutoff_period : Option ℚ) (window_len : Option ℕ) (lopass : Bool) :
    Except PyErr (List ℚ) :=
  match cutoff_period with
  | none => .error .valueError
  | some cp =>
    match window_len with
    | none => .error .valueError
    | some wl => .ok (fftBody vector cp wl lopass)

/-- **C9.** In both filter directions (`lopass` true or false), whenever
`cutoff_period` is unset or `window_len` is unset, `_transform` fails
with the explicit `raise ValueError` (the spec's ValidationError tier);
the result is this error for every possible FFT body, i.e. the failure
happens before any FFT computation on the input vector. -/
theorem transform_requires_parameters
    (fftBody : List ℚ → ℚ → ℕ → Bool → List ℚ) (vector : List ℚ)
    (cutoff_period : Option ℚ) (window_len : Option ℕ) (lopass : Bool)
    (h : cutoff_period = none ∨ window_len = none) :
    _transform fftBody vector cutoff_period window_len lopass =
      .error .valueError := by
  rcases h with rfl | rfl
  · rfl
  · cases cutoff_period <;> rfl

/-- Witness for C9: unset `cutoff_period` in the low-pass direction and
unset `window_len` in the high-pass direction. -/
theorem transform_requires_parameters_witness :
    _transform (fun v _ _ _ => v) [1] none (some 5) true =
      .error .valueError ∧
    _transform (fun v _ _ _ => v) [1] (some 10) none false =
      .error .valueError :=
  ⟨transform_requires_parameters (fun v _ _ _ => v) [1] none (some 5) true
      (Or.inl rfl),
    transform_requires_parameters (fun v _ _ _ => v) [1] (some 10) none false
      (Or.inr rfl)⟩

/-- A Python runtime value, as far as the filter module needs one. -/
inductive PyVal where
  | num (q : ℚ)
  | vec (v : List ℚ)
  | pynone
  | obj (descr : String)

/-- The names defined at module level in `filters.py` when
`fft_highpass` runs: the `__future__` import, the numpy import, the two
module globals, the two exception classes and the three functions.
Neither `cutoff_period` nor `window_len` is among them. -/
def filtersGlobals : List (String × PyVal) :=
  [("print_function", .obj "future feature"),
    ("np", .obj "module"),
    ("modname", .obj "str"),
    ("__all__", .obj "list"),
    ("MisMatchedKernel", .obj "class"),
    ("BadKernelValues", .obj "class"),
    ("_transform", .obj "function"),
    ("fft_lowpass", .obj "function"),
    ("fft_highpass", .obj "function")]

/-- Python name resolution over an environment of bindings: a name that
is bound nowhere raises `NameError`. -/
def lookupName (env : List (String × PyVal)) (n : String) :
    Except PyErr PyVal :=
  match env.find? (fun p => p.1 == n) with
  | some p => .ok p.2
  | none => .error .nameError

/-- The body of `filters.fft_highpass(vector, ramp_start_freq,
ramp_end_freq)`: it returns
`_transform(vector, cutoff_period=cutoff_period, window_len=window_len,
lopass=False)`, resolving `_transform`, then the argument names in
order.  `transformCall` stands for the call that would be made if the
arguments ever resolved. -/
def fft_highpass (transformCall : PyVal → PyVal → PyVal → Except PyErr PyVal)
    (vector ramp_start_freq ramp_end_freq : PyVal) : Except PyErr PyVal :=
  let env := [("vector", vector), ("ramp_start_freq", ramp_start_freq),
    ("ramp_end_freq", ramp_end_freq)] ++ filtersGlobals
  do
    let _f ← lookupName env "_transform"
    let v ← lookupName env "vector"
    let c ← lookupName env "cutoff_period"
    let w ← lookupName env "window_len"
    transformCall v c w

/-- **C10.** For every input vector and every values of the ramp
parameters, `filters.fft_highpass` raises `NameError` and never returns
a filtered vector: its body forwards the names `cutoff_period` and
`window_len`, which are neither among its parameters nor defined in any
enclosing scope — whatever `_transform` would do is never reached. -/
theorem fft_highpass_always_name_error
    (transformCall : PyVal → PyVal → PyVal → Except PyErr PyVal)
    (vector ramp_start_freq ramp_end_freq : PyVal) :
    fft_highpass transformCall vector ramp_start_freq ramp_end_freq =
      .error .nameError := rfl
